import Mathlib

set_option maxRecDepth 100000

/-!
Verification development for the content-bundling pipeline of the
General_Coding_Tools_MCP repository.  The definitions below are a shallow
embedding of `mcp-server/scripts/bundle-content.cjs`: the frontmatter
parser, the skill/subagent catalog builders, the catalog/overview text
generators, the compact JSON serializer with its SHA-256 integrity
sidecar, and (modelled from the spec, since the runtime server code is
not part of the bundler script) the loader/Get access surface.
-/

namespace GCT

/-- Whitespace per the JavaScript regex class `\s` (and `String.prototype.trim`). -/
def jsWs (c : Char) : Bool :=
  let n := c.toNat
  n = 0x20 || n = 0x09 || n = 0x0a || n = 0x0b || n = 0x0c || n = 0x0d ||
  n = 0xa0 || n = 0x1680 || (0x2000 ≤ n && n ≤ 0x200a) || n = 0x2028 || n = 0x2029 ||
  n = 0x202f || n = 0x205f || n = 0x3000 || n = 0xfeff

/-- Line terminators, the characters NOT matched by the JavaScript regex `.` . -/
def lineTerm (c : Char) : Bool :=
  let n := c.toNat
  n = 0x0a || n = 0x0d || n = 0x2028 || n = 0x2029

/-- The quote characters of the character class `["']` in line 38 of the script. -/
def isQuote (c : Char) : Bool := c = '"' || c = Char.ofNat 39

/-- JavaScript `String.prototype.trim` on a character list. -/
def jsTrim (l : List Char) : List Char :=
  ((l.dropWhile jsWs).reverse.dropWhile jsWs).reverse

/-- Length of the maximal whitespace prefix (what a greedy `\s*` first consumes). -/
def wsLen : List Char → Nat
  | [] => 0
  | c :: cs => if jsWs c then wsLen cs + 1 else 0

/-- Index of the first occurrence of `pat` as a sublist, if any. -/
def findIdx (pat : List Char) : List Char → Option Nat
  | [] => if pat = [] then some 0 else none
  | c :: cs => if pat.isPrefixOf (c :: cs) then some 0 else (findIdx pat cs).map (· + 1)

/-- Attempt the suffix `\s*(.+)` of the field regexes at the very start of `s`
(the text following the field label).  Greedy `\s*` with backtracking: the
largest whitespace-prefix length `k` whose following character exists and is
not a line terminator wins, and `.+` then greedily captures to the end of
that line. -/
def fieldValAt (s : List Char) : Option (List Char) :=
  ((List.range (wsLen s + 1)).reverse).findSome? fun k =>
    match s.get? k with
    | some c => if lineTerm c then none else some ((s.drop k).takeWhile (fun c => !lineTerm c))
    | none => none

/-- JavaScript `block.match(/label\s*(.+)/)`: try the pattern at each successive
occurrence of the label, returning the first successful capture. -/
def findField (label : List Char) : List Char → Option (List Char)
  | [] => none
  | c :: cs =>
    if label.isPrefixOf (c :: cs) then
      match fieldValAt ((c :: cs).drop label.length) with
      | some v => some v
      | none => findField label cs
    else findField label cs

/-- The frontmatter block match of line 33, the regex being
`^---\s*\n([\s\S]*?)\n` followed by three dashes, anchored at the start.
The document must start with `---`; greedy `\s*` followed by a
literal newline backtracks to the last candidate newline inside the leading
whitespace run; the lazy capture ends at the first later occurrence of
`\n---`. -/
def fmBlock (content : List Char) : Option (List Char) :=
  if ("---".toList).isPrefixOf content then
    let rest := content.drop 3
    ((List.range (wsLen rest)).reverse).findSome? fun k =>
      if rest.get? k = some '\n' then
        match findIdx ("\n---".toList) (rest.drop (k + 1)) with
        | some j => some ((rest.drop (k + 1)).take j)
        | none => none
      else none
  else none

/-- Line 38 of the script: `.replace(/^["']|["']$/g, '')` — remove one leading
quote character if present, and one trailing quote character if present. -/
def stripQuotes (l : List Char) : List Char :=
  let l1 := match l with
    | [] => []
    | c :: cs => if isQuote c then cs else c :: cs
  match l1.getLast? with
  | some c => if isQuote c then l1.dropLast else l1
  | none => l1

/-- Lines 39 and 40 of the script: trim has already happened; when the value is
non-empty (JS truthiness) and starts with a quote character, `slice(1, -1)`
drops its first and last characters, whatever the last character is. -/
def descStrip (l : List Char) : List Char :=
  match l with
  | [] => []
  | c :: cs => if isQuote c then (c :: cs).dropLast.drop 1 else c :: cs

/-- Name-field post-processing of line 38: trim, then strip surrounding quotes. -/
def stripName (v : List Char) : String := String.mk (stripQuotes (jsTrim v))

/-- Description-field post-processing of lines 39 and 40. -/
def stripDesc (v : List Char) : String := String.mk (descStrip (jsTrim v))

def nameLabel : List Char := "name:".toList

def descLabel : List Char := "description:".toList

/-- The `extractFrontmatter` function, lines 32 to 42 of the script. -/
def extractFrontmatter (content : String) : Option String × Option String :=
  match fmBlock content.toList with
  | none => (none, none)
  | some b => ((findField nameLabel b).map stripName, (findField descLabel b).map stripDesc)

/-- JavaScript `a || b` on an optional string: the fallback fires when the
value is absent (null) or empty (falsy). -/
def jsOr : Option String → String → String
  | some s, d => if s = "" then d else s
  | none, d => d

/-- JavaScript `!!x` on a nullable string: true exactly for a present,
non-empty string. -/
def jsTruthy : Option String → Bool
  | some s => if s = "" then false else true
  | none => false

/-- Assignment `byName[name] = v` on a JavaScript object used as a map:
an existing key keeps its position and gets the new value, a new key is
appended.  (JS would additionally front-order integer-like keys during
iteration; no skill or subagent in this repository is named like an
integer and no claim depends on iteration order.) -/
def upsert (m : List (String × α)) (k : String) (v : α) : List (String × α) :=
  if m.any (fun p => p.1 = k) then m.map (fun p => if p.1 = k then (k, v) else p)
  else m ++ [(k, v)]

/-- Property read `byName[k]` on a JavaScript object used as a map. -/
def alookup (m : List (String × α)) (k : String) : Option α :=
  match m with
  | [] => none
  | p :: t => if p.1 = k then some p.2 else alookup t k

/-- One entry of the skills source root: a directory name, the content of
`SKILL.md` when that file exists, and the content of `REFERENCE.md` when
that file exists. -/
structure SkillDir where
  dirName : String
  skill : Option String
  reference : Option String
deriving DecidableEq, Repr

/-- The record built per skill directory, lines 59 to 65 of the script. -/
structure SkillRec where
  id : String
  name : String
  description : String
  content : String
  reference : Option String
deriving DecidableEq, Repr

/-- One element of the `skills` metadata list, line 67 of the script. -/
structure SkillMeta where
  id : String
  name : String
  hasReference : Bool
deriving DecidableEq, Repr

/-- The result of `buildSkills`, line 68 of the script. -/
structure SkillsBuild where
  skills : List SkillMeta
  byName : List (String × SkillRec)
deriving DecidableEq, Repr

/-- Lines 56 to 65 of the script: the record stored for a directory `d`
whose `SKILL.md` has content `c`. -/
def mkSkillRec (d : SkillDir) (c : String) : SkillRec :=
  let fm := extractFrontmatter c
  { id := d.dirName
    name := jsOr fm.1 d.dirName
    description := (fm.2).getD ""
    content := c
    reference := d.reference }

/-- The loop body of `buildSkills`: directories without `SKILL.md` are
skipped, others are folded into the name-keyed map. -/
def skillStep (m : List (String × SkillRec)) (d : SkillDir) : List (String × SkillRec) :=
  match d.skill with
  | none => m
  | some c => upsert m (mkSkillRec d c).name (mkSkillRec d c)

def skillsFold (m : List (String × SkillRec)) (dirs : List SkillDir) : List (String × SkillRec) :=
  dirs.foldl skillStep m

/-- Line 67 of the script: `{ id, name, hasReference: !!s.reference }`. -/
def toSkillMeta (r : SkillRec) : SkillMeta :=
  { id := r.id, name := r.name, hasReference := jsTruthy r.reference }

/-- The `buildSkills` function, lines 47 to 69 of the script.  `none` models
an absent skills root (`fs.existsSync(SKILLS_DIR)` false). -/
def buildSkills : Option (List SkillDir) → SkillsBuild
  | none => ⟨[], []⟩
  | some dirs =>
    let byName := skillsFold [] dirs
    ⟨byName.map (fun p => toSkillMeta p.2), byName⟩

/-- One entry of the subagents source root: a file name and its content. -/
structure SubagentFile where
  fileName : String
  content : String
deriving DecidableEq, Repr

/-- The record built per subagent document, line 80 of the script. -/
structure SubagentRec where
  id : String
  name : String
  description : String
  content : String
deriving DecidableEq, Repr

/-- One element of the `subagents` metadata list, line 82 of the script. -/
structure SubagentMeta where
  id : String
  name : String
deriving DecidableEq, Repr

/-- The result of `buildSubagents`, line 83 of the script. -/
structure SubagentsBuild where
  subagents : List SubagentMeta
  byName : List (String × SubagentRec)
deriving DecidableEq, Repr

/-- Node `path.basename(f, '.md')` for a bare file name: the suffix is
stripped only when it is a proper suffix, never when it is the whole name. -/
def stem (f : String) : String := if f = ".md" then f else f.dropRight 3

/-- Lines 76 to 80 of the script: the record stored for a subagent file. -/
def mkSubagentRec (f : SubagentFile) : SubagentRec :=
  let fm := extractFrontmatter f.content
  let s := stem f.fileName
  { id := s, name := jsOr fm.1 s, description := (fm.2).getD "", content := f.content }

def subStep (m : List (String × SubagentRec)) (f : SubagentFile) : List (String × SubagentRec) :=
  upsert m (mkSubagentRec f).name (mkSubagentRec f)

def subsFold (m : List (String × SubagentRec)) (files : List SubagentFile) :
    List (String × SubagentRec) :=
  files.foldl subStep m

/-- The `buildSubagents` function, lines 71 to 84 of the script. -/
def buildSubagents : Option (List SubagentFile) → SubagentsBuild
  | none => ⟨[], []⟩
  | some files =>
    let byName := subsFold [] (files.filter (fun f => f.fileName.endsWith ".md"))
    ⟨byName.map (fun p => ⟨p.2.id, p.2.name⟩), byName⟩

/-- One line of the generated catalog, line 91 and line 97 of the script. -/
def catalogLine (nm theId desc : String) : String :=
  "- **" ++ nm ++ "** (id: `" ++ theId ++ "`) — " ++ desc

/-- JavaScript `entry?.description || '(no description)'` for a looked-up record. -/
def descOr (o : Option String) : String :=
  match o with
  | some d => if d = "" then "(no description)" else d
  | none => "(no description)"

/-- The `buildCatalog` function, lines 86 to 100 of the script. -/
def buildCatalog (sd : SkillsBuild) (ad : SubagentsBuild) : String :=
  let skillLines := sd.skills.map fun s =>
    catalogLine s.name s.id (descOr ((alookup sd.byName s.name).map (·.description)))
  let agentLines := ad.subagents.map fun a =>
    catalogLine a.name a.id (descOr ((alookup ad.byName a.name).map (·.description)))
  String.intercalate "\n"
    (["# Catalog", "", "## Skills", ""] ++ skillLines ++ ["", "## Subagents", ""] ++ agentLines)

/-- The fields of `package.json` that `buildOverview` reads. -/
structure Pkg where
  name : String
  description : String
  version : Option String
deriving DecidableEq, Repr

/-- The `buildOverview` function, lines 107 to 120 of the script. -/
def buildOverview (pkg : Pkg) : String :=
  String.intercalate "\n"
    ["# Overview", "",
     "**" ++ pkg.name ++ "** — " ++ pkg.description, "",
     "Version: `" ++ jsOr pkg.version "unknown" ++ "`", "",
     "Use the **catalog** resource for a list of skills and subagents. Use **when-to-use** to choose the right one for the request."]

/-- The build-time filesystem inputs of the script: the two source roots
(`none` when the directory does not exist), the optional static
`docs/when-to-use.md`, and the product descriptor from `package.json`. -/
structure Fs where
  skillsRoot : Option (List SkillDir)
  subagentsRoot : Option (List SubagentFile)
  whenToUse : Option String
  pkg : Pkg
deriving DecidableEq, Repr

/-- A value of `content.skills`, built on lines 129 to 134 of the script. -/
structure SkillEntry where
  content : String
  reference : Option String
deriving DecidableEq, Repr

/-- A value of `content.subagents`, built on lines 135 to 137 of the script. -/
structure SubagentEntry where
  content : String
deriving DecidableEq, Repr

/-- The persisted bundle, the `output` object of lines 125 to 142. -/
structure Bundle where
  skills : List SkillMeta
  subagents : List SubagentMeta
  contentSkills : List (String × SkillEntry)
  contentSubagents : List (String × SubagentEntry)
  catalog : String
  whenToUse : String
  overview : String
deriving DecidableEq, Repr

/-- The `output` object, lines 125 to 142 of the script.  `readWhenToUse`
(lines 102 to 105) is inlined as `getD ""`. -/
def output (fs : Fs) : Bundle :=
  let sd := buildSkills fs.skillsRoot
  let ad := buildSubagents fs.subagentsRoot
  { skills := sd.skills
    subagents := ad.subagents
    contentSkills := sd.byName.map (fun p => (p.1, ⟨p.2.content, p.2.reference⟩))
    contentSubagents := ad.byName.map (fun p => (p.1, ⟨p.2.content⟩))
    catalog := buildCatalog sd ad
    whenToUse := fs.whenToUse.getD ""
    overview := buildOverview fs.pkg }

/-- Lowercase hexadecimal digit, as produced by Node `digest('hex')` and by
`JSON.stringify` control-character escapes. -/
def hexDigitChar (n : Nat) : Char := Char.ofNat (if n < 10 then 48 + n else 87 + n)

/-- JSON.stringify escaping of one character inside a string literal. -/
def escChar (c : Char) : List Char :=
  if c = '"' then ['\\', '"']
  else if c = '\\' then ['\\', '\\']
  else if c = Char.ofNat 8 then ['\\', 'b']
  else if c = '\t' then ['\\', 't']
  else if c = '\n' then ['\\', 'n']
  else if c = Char.ofNat 12 then ['\\', 'f']
  else if c = '\r' then ['\\', 'r']
  else if c.toNat < 32 then
    ['\\', 'u', '0', '0', hexDigitChar (c.toNat / 16 % 16), hexDigitChar (c.toNat % 16)]
  else [c]

def escList : List Char → List Char
  | [] => []
  | c :: cs => escChar c ++ escList cs

/-- A JSON string literal as JSON.stringify prints it. -/
def serStr (s : String) : List Char := '"' :: escList s.toList ++ ['"']

/-- A nullable string field: JSON.stringify prints `null` for JS null. -/
def serOptStr : Option String → List Char
  | none => "null".toList
  | some s => serStr s

def joinComma : List (List Char) → List Char
  | [] => []
  | [x] => x
  | x :: y :: t => x ++ ',' :: joinComma (y :: t)

/-- JSON.stringify of one element of the `skills` metadata array; key order is
the property creation order `id`, `name`, `hasReference` of line 67. -/
def serSkillMeta (m : SkillMeta) : List Char :=
  "\x7b\"id\":".toList ++ serStr m.id ++ ",\"name\":".toList ++ serStr m.name ++
  ",\"hasReference\":".toList ++
  (if m.hasReference then "true".toList else "false".toList) ++ ['\x7d']

/-- JSON.stringify of one element of the `subagents` metadata array (line 82). -/
def serSubagentMeta (m : SubagentMeta) : List Char :=
  "\x7b\"id\":".toList ++ serStr m.id ++ ",\"name\":".toList ++ serStr m.name ++ ['\x7d']

/-- JSON.stringify of one value of `content.skills` (lines 130 to 133). -/
def serSkillEntry (e : SkillEntry) : List Char :=
  "\x7b\"content\":".toList ++ serStr e.content ++
  ",\"reference\":".toList ++ serOptStr e.reference ++ ['\x7d']

/-- JSON.stringify of one value of `content.subagents` (line 136). -/
def serSubagentEntry (e : SubagentEntry) : List Char :=
  "\x7b\"content\":".toList ++ serStr e.content ++ ['\x7d']

def serPair (f : α → List Char) (p : String × α) : List Char :=
  serStr p.1 ++ ':' :: f p.2

/-- JSON.stringify of an object built by `Object.fromEntries`, keys in entry
order. -/
def serObj (f : α → List Char) (m : List (String × α)) : List Char :=
  '\x7b' :: joinComma (m.map (serPair f)) ++ ['\x7d']

/-- JSON.stringify of an array. -/
def serArr (f : α → List Char) (l : List α) : List Char :=
  '[' :: joinComma (l.map f) ++ [']']

/-- JSON.stringify of the whole `output` object with indent 0 (line 145):
compact, no whitespace between tokens, keys in property creation order. -/
def serBundle (b : Bundle) : List Char :=
  "\x7b\"skills\":".toList ++ serArr serSkillMeta b.skills ++
  ",\"subagents\":".toList ++ serArr serSubagentMeta b.subagents ++
  ",\"content\":\x7b\"skills\":".toList ++ serObj serSkillEntry b.contentSkills ++
  ",\"subagents\":".toList ++ serObj serSubagentEntry b.contentSubagents ++
  ",\"catalog\":".toList ++ serStr b.catalog ++
  ",\"whenToUse\":".toList ++ serStr b.whenToUse ++
  ",\"overview\":".toList ++ serStr b.overview ++ "\x7d\x7d".toList

/-- The serialized artifact text, `jsonContent` of line 145. -/
def jsonContent (fs : Fs) : String := String.mk (serBundle (output fs))

/-- UTF-8 encoding of one unicode scalar, as Node encodes strings written or
hashed with the `utf8` option. -/
def utf8Char (c : Char) : List Nat :=
  let n := c.toNat
  if n < 0x80 then [n]
  else if n < 0x800 then [0xc0 + n / 64, 0x80 + n % 64]
  else if n < 0x10000 then [0xe0 + n / 4096, 0x80 + n / 64 % 64, 0x80 + n % 64]
  else [0xf0 + n / 262144, 0x80 + n / 4096 % 64, 0x80 + n / 64 % 64, 0x80 + n % 64]

def utf8List : List Char → List Nat
  | [] => []
  | c :: cs => utf8Char c ++ utf8List cs

/-- The byte sequence Node writes (and hashes) for a string under `utf8`. -/
def utf8Bytes (s : String) : List Nat := utf8List s.toList

/-- Reduction modulo 2 to the 32, the word size of SHA-256. -/
def m32 (x : Nat) : Nat := x % 4294967296

/-- Right rotation of a 32-bit word. -/
def rot32 (n x : Nat) : Nat := m32 ((x >>> n) ||| (x <<< (32 - n)))

def bnot32 (x : Nat) : Nat := x ^^^ 4294967295

def bigS0 (x : Nat) : Nat := rot32 2 x ^^^ rot32 13 x ^^^ rot32 22 x

def bigS1 (x : Nat) : Nat := rot32 6 x ^^^ rot32 11 x ^^^ rot32 25 x

def smallS0 (x : Nat) : Nat := rot32 7 x ^^^ rot32 18 x ^^^ (x >>> 3)

def smallS1 (x : Nat) : Nat := rot32 17 x ^^^ rot32 19 x ^^^ (x >>> 10)

def chF (x y z : Nat) : Nat := (x &&& y) ^^^ (bnot32 x &&& z)

def majF (x y z : Nat) : Nat := (x &&& y) ^^^ (x &&& z) ^^^ (y &&& z)

/-- The SHA-256 round constants of FIPS 180-2 (decimal form); the embedding
is validated against the FIPS test vectors further below. -/
def K64 : List Nat :=
  [1116352408, 1899447441, 3049323471, 3921009573, 961987163,
   1508970993, 2453635748, 2870763221, 3624381080, 310598401,
   607225278, 1426881987, 1925078388, 2162078206, 2614888103,
   3248222580, 3835390401, 4022224774, 264347078, 604807628,
   770255983, 1249150122, 1555081692, 1996064986, 2554220882,
   2821834349, 2952996808, 3210313671, 3336571891, 3584528711,
   113926993, 338241895, 666307205, 773529912, 1294757372,
   1396182291, 1695183700, 1986661051, 2177026350, 2456956037,
   2730485921, 2820302411, 3259730800, 3345764771, 3516065817,
   3600352804, 4094571909, 275423344, 430227734, 506948616,
   659060556, 883997877, 958139571, 1322822218, 1537002063,
   1747873779, 1955562222, 2024104815, 2227730452, 2361852424,
   2428436474, 2756734187, 3204031479, 3329325298]

/-- The eight working words of the SHA-256 state. -/
structure Hash8 where
  a : Nat
  b : Nat
  c : Nat
  d : Nat
  e : Nat
  f : Nat
  g : Nat
  h : Nat
deriving DecidableEq, Repr

/-- The SHA-256 initial state of FIPS 180-2 (decimal form). -/
def IV : Hash8 :=
  ⟨1779033703, 3144134277, 1013904242, 2773480762,
   1359893119, 2600822924, 528734635, 1541459225⟩

/-- SHA-256 padding: append 0x80, zero bytes to 56 mod 64, then the bit length
as eight big-endian bytes. -/
def padMsg (msg : List Nat) : List Nat :=
  let L := msg.length
  let z := (119 - L % 64) % 64
  msg ++ 0x80 :: List.replicate z 0 ++
    (List.range 8).map (fun i => ((8 * L) >>> (8 * (7 - i))) % 256)

def chunksGo : Nat → List Nat → List (List Nat)
  | 0, _ => []
  | n + 1, l => l.take 64 :: chunksGo n (l.drop 64)

/-- Split a byte list into 64-byte blocks. -/
def chunks64 (l : List Nat) : List (List Nat) := chunksGo ((l.length + 63) / 64) l

def beWord (b0 b1 b2 b3 : Nat) : Nat := ((b0 * 256 + b1) * 256 + b2) * 256 + b3

/-- The sixteen big-endian message words of a 64-byte block. -/
def toWords (blk : List Nat) : List Nat :=
  (List.range 16).map fun i =>
    beWord (blk.getD (4 * i) 0) (blk.getD (4 * i + 1) 0)
      (blk.getD (4 * i + 2) 0) (blk.getD (4 * i + 3) 0)

/-- Message-schedule extension by `n` further words. -/
def extendW (w : Array Nat) : Nat → Array Nat
  | 0 => w
  | n + 1 =>
    let s := w.size
    extendW
      (w.push (m32 (smallS1 (w.getD (s - 2) 0) + w.getD (s - 7) 0 +
        smallS0 (w.getD (s - 15) 0) + w.getD (s - 16) 0))) n

def schedule (blk : List Nat) : List Nat := (extendW (toWords blk).toArray 48).toList

/-- One SHA-256 round. -/
def roundF (st : Hash8) (kw : Nat × Nat) : Hash8 :=
  let t1 := m32 (st.h + bigS1 st.e + chF st.e st.f st.g + kw.1 + kw.2)
  let t2 := m32 (bigS0 st.a + majF st.a st.b st.c)
  ⟨m32 (t1 + t2), st.a, st.b, st.c, m32 (st.d + t1), st.e, st.f, st.g⟩

/-- SHA-256 compression of one 64-byte block into the running state. -/
def compress (st : Hash8) (blk : List Nat) : Hash8 :=
  let r := ((K64.zip (schedule blk)).foldl roundF st)
  ⟨m32 (st.a + r.a), m32 (st.b + r.b), m32 (st.c + r.c), m32 (st.d + r.d),
   m32 (st.e + r.e), m32 (st.f + r.f), m32 (st.g + r.g), m32 (st.h + r.h)⟩

def hexByte (b : Nat) : List Char := [hexDigitChar (b / 16 % 16), hexDigitChar (b % 16)]

def hexWord (w : Nat) : List Char :=
  hexByte ((w >>> 24) % 256) ++ hexByte ((w >>> 16) % 256) ++
  hexByte ((w >>> 8) % 256) ++ hexByte (w % 256)

def hexState (st : Hash8) : List Char :=
  hexWord st.a ++ hexWord st.b ++ hexWord st.c ++ hexWord st.d ++
  hexWord st.e ++ hexWord st.f ++ hexWord st.g ++ hexWord st.h

/-- The lowercase hexadecimal SHA-256 digest of a byte sequence, as Node
`createHash('sha256').digest('hex')` prints it. -/
def sha256Hex (msg : List Nat) : String :=
  String.mk (hexState ((chunks64 (padMsg msg)).foldl compress IV))

/-- Line 147 of the script: the digest of the UTF-8 bytes of a string. -/
def sha256HexOfString (s : String) : String := sha256Hex (utf8Bytes s)

/-- The artifact path, `OUT_FILE` of line 15, relative to the package root. -/
def outFilePath : String := "dist/content.json"

/-- The sidecar path of line 148: the artifact path suffixed with `.sha256`. -/
def sidecarPath : String := outFilePath ++ ".sha256"

/-- The exact bytes written to the artifact (line 146, `utf8` encoding). -/
def artifactBytes (fs : Fs) : List Nat := utf8Bytes (jsonContent fs)

/-- The digest of line 147, computed over the `utf8` bytes of `jsonContent`. -/
def hashHex (fs : Fs) : String := sha256Hex (artifactBytes fs)

/-- The sidecar file content of line 148: the hex digest plus one newline. -/
def sidecarContent (fs : Fs) : String := hashHex fs ++ "\n"

/-- Modelled from the spec: the runtime loader and the Get access surface
(spec sections 4.5 and 4.6) live in the server code, which is not part of the
bundler script.  Per the spec, after the digest check the loader parses the
artifact back into the structure of section 3 — the bundle itself — and Get
for skills looks the caller string up by `id` first and then by `name`,
returning the full content and the reference text on a hit. -/
def getSkillContent (b : Bundle) (key : String) : Option (String × Option String) :=
  match b.skills.find? (fun m => m.id = key) with
  | some m => (alookup b.contentSkills m.name).map (fun e => (e.content, e.reference))
  | none => (alookup b.contentSkills key).map (fun e => (e.content, e.reference))

/-- Modelled from the spec: Get for subagents, spec section 4.6 — look up by
`id` first, then by `name`, returning the document content on a hit. -/
def getSubagentContent (b : Bundle) (key : String) : Option String :=
  match b.subagents.find? (fun m => m.id = key) with
  | some m => (alookup b.contentSubagents m.name).map (·.content)
  | none => (alookup b.contentSubagents key).map (·.content)

/-! Auxiliary notions used to state and prove the claims. -/

/-- The key-value pair a skill directory contributes to the map, if any. -/
def skillF (d : SkillDir) : Option (String × SkillRec) :=
  match d.skill with
  | none => none
  | some c => some ((mkSkillRec d c).name, mkSkillRec d c)

/-- The key-value pair a subagent file contributes to the map. -/
def subF (f : SubagentFile) : Option (String × SubagentRec) :=
  some ((mkSubagentRec f).name, mkSubagentRec f)

/-- One step of folding a stream of optional key-value pairs into a JS map. -/
def mapStep (f : β → Option (String × α)) (m : List (String × α)) (b : β) :
    List (String × α) :=
  match f b with
  | none => m
  | some p => upsert m p.1 p.2

/-- Folding a stream of optional key-value pairs into a JS-object map. -/
def mapFold (f : β → Option (String × α)) (m : List (String × α)) (l : List β) :
    List (String × α) :=
  l.foldl (mapStep f) m

/-- The value contributed for key `n` by the LAST element of `l` that
contributes to `n` — the value last-write-wins leaves in the map. -/
def lastVal (f : β → Option (String × α)) (l : List β) (n : String) : Option α :=
  l.reverse.findSome? fun b =>
    match f b with
    | some p => if p.1 = n then some p.2 else none
    | none => none

/-- Does this element contribute the key `n` to the map? -/
def keyPred (f : β → Option (String × α)) (n : String) (b : β) : Bool :=
  match f b with
  | some p => decide (p.1 = n)
  | none => false

/-- The directories that are processed (have a primary document) and whose
resolved map key is `n`. -/
def relevantSkills (dirs : List SkillDir) (n : String) : List SkillDir :=
  dirs.filter (keyPred skillF n)

/-- The subagent files that are processed (`.md` suffix) and whose resolved
map key is `n`. -/
def relevantSubs (files : List SubagentFile) (n : String) : List SubagentFile :=
  (files.filter (fun f => f.fileName.endsWith ".md")).filter (keyPred subF n)

/-- How many entries of an association list carry the key `k`. -/
def countKey (m : List (String × α)) (k : String) : Nat :=
  (m.filter (fun p => p.1 = k)).length

def keysOf (m : List (String × α)) : List String := m.map (·.1)

/-- Does a trimmed raw field value start with a quote character? -/
def startsQ : List Char → Bool
  | [] => false
  | c :: _ => isQuote c

/-- Does a trimmed raw field value end with a quote character? -/
def endsQ (l : List Char) : Bool :=
  match l.getLast? with
  | some c => isQuote c
  | none => false

/-- The whitespace JSON would tolerate between tokens. -/
def jsonWs (c : Char) : Bool := c = ' ' || c = '\t' || c = '\n' || c = '\r'

/-- One step of a scanner over serialized JSON: state is (no stray whitespace
so far, inside a string literal, previous character was an escaping
backslash). -/
def scanStep : Bool × Bool × Bool → Char → Bool × Bool × Bool
  | (ok, inStr, esc), c =>
    if inStr then
      if esc then (ok, true, false)
      else if c = '\\' then (ok, true, true)
      else if c = '"' then (ok, false, false)
      else (ok, true, false)
    else if c = '"' then (ok, true, false)
    else (ok && !jsonWs c, false, false)

/-- No whitespace character occurs outside the string literals of `s`: the
serialized form has no extraneous whitespace. -/
def noStrayWs (s : String) : Bool := (s.toList.foldl scanStep (true, false, false)).1

/-- Scanning a chunk from any outside-string state returns to that state and
flags nothing: the chunk is whitespace-clean. -/
def ScanInv (l : List Char) : Prop :=
  ∀ ok : Bool, List.foldl scanStep (ok, false, false) l = (ok, false, false)

/-- Lowercase hexadecimal digits. -/
def lowerHex (c : Char) : Bool := ("0123456789abcdef".toList).contains c

end GCT

/-! Generic lemmas about the JS-object map operations. -/

namespace GCT

theorem alookup_append (m l : List (String × α)) (k : String) :
    alookup (m ++ l) k =
      match alookup m k with
      | some v => some v
      | none => alookup l k := by
  induction m with
  | nil => simp [alookup]
  | cons p t ih =>
    by_cases h : p.1 = k
    · simp [alookup, h]
    · simp [alookup, h, ih]

theorem alookup_eq_none_of_any_false (m : List (String × α)) (k : String)
    (h : m.any (fun p => p.1 = k) = false) : alookup m k = none := by
  induction m with
  | nil => rfl
  | cons p t ih =>
    simp only [List.any_cons, Bool.or_eq_false_iff, decide_eq_false_iff_not] at h
    simp [alookup, h.1, ih h.2]

theorem alookup_map_update (m : List (String × α)) (k : String) (v : α)
    (h : m.any (fun p => p.1 = k) = true) :
    alookup (m.map (fun p => if p.1 = k then (k, v) else p)) k = some v := by
  induction m with
  | nil => simp at h
  | cons p t ih =>
    by_cases hp : p.1 = k
    · simp [alookup, hp]
    · simp only [List.any_cons, Bool.or_eq_true, decide_eq_true_eq] at h
      exact by simp [alookup, hp, ih (h.resolve_left hp)]

theorem alookup_upsert_self (m : List (String × α)) (k : String) (v : α) :
    alookup (upsert m k v) k = some v := by
  unfold upsert
  split
  · next h => exact alookup_map_update m k v h
  · next h =>
    rw [alookup_append, alookup_eq_none_of_any_false m k (Bool.eq_false_iff.mpr h)]
    simp [alookup]

theorem alookup_map_update_other (m : List (String × α)) (k : String) (v : α) (n : String)
    (h : n ≠ k) :
    alookup (m.map (fun p => if p.1 = k then (k, v) else p)) n = alookup m n := by
  induction m with
  | nil => rfl
  | cons p t ih =>
    by_cases hp : p.1 = k
    · have hkn : ¬ ((k : String) = n) := fun hh => h hh.symm
      have hpn : ¬ p.1 = n := fun hh => h (hp.symm.trans hh).symm
      simp [alookup, hp, hkn, hpn, ih]
    · simp only [List.map_cons, if_neg hp]
      by_cases hn : p.1 = n
      · simp [alookup, hn]
      · simp [alookup, hn, ih]

theorem alookup_upsert_other (m : List (String × α)) (k : String) (v : α) (n : String)
    (h : n ≠ k) : alookup (upsert m k v) n = alookup m n := by
  unfold upsert
  split
  · exact alookup_map_update_other m k v n h
  · rw [alookup_append]
    have hkn : ¬ ((k : String) = n) := fun hh => h hh.symm
    cases hm : alookup m n with
    | some v' => simp
    | none => simp [alookup, hkn]

theorem mem_upsert (m : List (String × α)) (k : String) (v : α) (q : String × α)
    (h : q ∈ upsert m k v) : q ∈ m ∨ q = (k, v) := by
  unfold upsert at h
  split at h
  · obtain ⟨p, hp, he⟩ := List.mem_map.mp h
    by_cases hpk : p.1 = k
    · right
      simp only [hpk, if_pos] at he
      exact he.symm
    · left
      simp only [hpk, if_neg, ite_false] at he
      exact he ▸ hp
  · rcases List.mem_append.mp h with h1 | h2
    · exact Or.inl h1
    · exact Or.inr (List.mem_singleton.mp h2)

theorem keysOf_cons (p : String × α) (t : List (String × α)) :
    keysOf (p :: t) = p.1 :: keysOf t := rfl

theorem keysOf_map_update (m : List (String × α)) (k : String) (v : α) :
    keysOf (m.map (fun p => if p.1 = k then (k, v) else p)) = keysOf m := by
  induction m with
  | nil => rfl
  | cons p t ih =>
    rw [List.map_cons, keysOf_cons, keysOf_cons, ih]
    congr 1
    by_cases hp : p.1 = k <;> simp [hp]

theorem keysOf_upsert (m : List (String × α)) (k : String) (v : α) :
    keysOf (upsert m k v) =
      if m.any (fun p => p.1 = k) = true then keysOf m else keysOf m ++ [k] := by
  unfold upsert
  split
  · exact keysOf_map_update m k v
  · simp [keysOf]

theorem nodup_keys_upsert (m : List (String × α)) (k : String) (v : α)
    (h : (keysOf m).Nodup) : (keysOf (upsert m k v)).Nodup := by
  rw [keysOf_upsert]
  split
  · exact h
  · next hf =>
    have hnot : k ∉ keysOf m := by
      intro hmem
      apply hf
      obtain ⟨p, hp, he⟩ := List.mem_map.mp hmem
      exact List.any_eq_true.mpr ⟨p, hp, by simp [he]⟩
    simp [List.nodup_append, h, hnot]

theorem mem_of_alookup (m : List (String × α)) (k : String) (v : α)
    (h : alookup m k = some v) : (k, v) ∈ m := by
  induction m with
  | nil => simp [alookup] at h
  | cons p t ih =>
    by_cases hp : p.1 = k
    · simp only [alookup, hp, if_pos, Option.some.injEq] at h
      have : p = (k, v) := Prod.ext hp h
      exact this ▸ List.mem_cons_self p t
    · simp only [alookup, hp, ite_false] at h
      exact List.mem_cons_of_mem p (ih h)

theorem alookup_of_mem (m : List (String × α)) (k : String) (v : α)
    (hmem : (k, v) ∈ m) (hnd : (keysOf m).Nodup) : alookup m k = some v := by
  induction m with
  | nil => simp at hmem
  | cons p t ih =>
    rw [keysOf_cons, List.nodup_cons] at hnd
    rcases List.mem_cons.mp hmem with he | ht
    · simp [alookup, ← he]
    · have hk : p.1 ≠ k := by
        intro hh
        have hkt : k ∈ keysOf t := List.mem_map.mpr ⟨(k, v), ht, rfl⟩
        rw [hh] at hnd
        exact hnd.1 hkt
      simp [alookup, hk, ih ht hnd.2]

theorem filter_keys_nil (m : List (String × α)) (n : String) (h : n ∉ keysOf m) :
    m.filter (fun p => p.1 = n) = [] := by
  rw [List.filter_eq_nil_iff]
  intro p hp
  simp only [decide_eq_true_eq]
  intro hpn
  exact h (List.mem_map.mpr ⟨p, hp, hpn⟩)

theorem filter_eq_singleton_of_alookup (m : List (String × α)) (n : String) (v : α)
    (hnd : (keysOf m).Nodup) (h : alookup m n = some v) :
    m.filter (fun p => p.1 = n) = [(n, v)] := by
  induction m with
  | nil => simp [alookup] at h
  | cons p t ih =>
    rw [keysOf_cons, List.nodup_cons] at hnd
    by_cases hp : p.1 = n
    · simp only [alookup, hp, if_pos, Option.some.injEq] at h
      have hnotin : n ∉ keysOf t := hp ▸ hnd.1
      have hft : t.filter (fun p => p.1 = n) = [] := filter_keys_nil t n hnotin
      have hpe : p = (n, v) := Prod.ext hp h
      simp [List.filter_cons, hp, hft, hpe]
    · simp only [alookup, hp, ite_false] at h
      simp [List.filter_cons, hp, ih hnd.2 h]

theorem alookup_mapVal (m : List (String × α)) (g : α → β) (k : String) :
    alookup (m.map (fun p => (p.1, g p.2))) k = (alookup m k).map g := by
  induction m with
  | nil => simp [alookup]
  | cons p t ih =>
    by_cases hp : p.1 = k
    · simp [alookup, hp]
    · simp [alookup, hp, ih]

theorem filter_mapVal (m : List (String × α)) (g : α → β) (n : String) :
    (m.map (fun p => (p.1, g p.2))).filter (fun p => p.1 = n) =
      (m.filter (fun p => p.1 = n)).map (fun p => (p.1, g p.2)) := by
  induction m with
  | nil => rfl
  | cons p t ih =>
    by_cases hp : p.1 = n
    · simp [List.filter_cons, hp, ih]
    · simp [List.filter_cons, hp, ih]

theorem mem_of_getLast?_eq (l : List γ) (d : γ) (h : l.getLast? = some d) : d ∈ l := by
  rw [List.getLast?_eq_head?_reverse] at h
  have hd : d ∈ l.reverse := by
    cases hr : l.reverse with
    | nil => rw [hr] at h; simp at h
    | cons x xs =>
      rw [hr] at h
      simp only [List.head?_cons, Option.some.injEq] at h
      exact h ▸ List.mem_cons_self x xs
  exact List.mem_reverse.mp hd

theorem getLast?_cons_of_ne (x : γ) (l : List γ) (h : l ≠ []) :
    (x :: l).getLast? = l.getLast? := by
  cases l with
  | nil => exact absurd rfl h
  | cons y ys => exact List.getLast?_cons_cons

theorem keyPred_true {f : β → Option (String × α)} {b : β} {n : String}
    (h : keyPred f n b = true) : ∃ p, f b = some p ∧ p.1 = n := by
  unfold keyPred at h
  cases hfb : f b with
  | none => rw [hfb] at h; simp at h
  | some p =>
    rw [hfb] at h
    simp only [decide_eq_true_eq] at h
    exact ⟨p, rfl, h⟩

theorem findSome?_singleton (g : γ → Option δ) (x : γ) : List.findSome? g [x] = g x := by
  cases hg : g x <;> simp [List.findSome?_cons, hg]

theorem lastVal_cons (f : β → Option (String × α)) (b : β) (t : List β) (n : String) :
    lastVal f (b :: t) n =
      (lastVal f t n).or
        (match f b with
         | some p => if p.1 = n then some p.2 else none
         | none => none) := by
  unfold lastVal
  rw [List.reverse_cons, List.findSome?_append, findSome?_singleton]

theorem alookup_mapFold (f : β → Option (String × α)) (l : List β)
    (m : List (String × α)) (n : String) :
    alookup (mapFold f m l) n =
      match lastVal f l n with
      | some v => some v
      | none => alookup m n := by
  induction l generalizing m with
  | nil => simp [mapFold, lastVal, List.findSome?]
  | cons b t ih =>
    have hstep : mapFold f m (b :: t) = mapFold f (mapStep f m b) t := rfl
    rw [hstep, ih, lastVal_cons]
    cases hl : lastVal f t n with
    | some v => simp
    | none =>
      cases hfb : f b with
      | none => simp [mapStep, hfb]
      | some p =>
        by_cases hpn : p.1 = n
        · simp only [hfb, hpn, if_pos, Option.none_or, mapStep]
          rw [← hpn]
          exact alookup_upsert_self m p.1 p.2
        · simp only [hfb, hpn, ite_false, Option.none_or, mapStep]
          exact alookup_upsert_other m p.1 p.2 n (fun hh => hpn hh.symm)

theorem nodup_keys_mapFold (f : β → Option (String × α)) (l : List β)
    (m : List (String × α)) (h : (keysOf m).Nodup) : (keysOf (mapFold f m l)).Nodup := by
  induction l generalizing m with
  | nil => exact h
  | cons b t ih =>
    have hstep : mapFold f m (b :: t) = mapFold f (mapStep f m b) t := rfl
    rw [hstep]
    cases hfb : f b with
    | none => exact ih _ (by simp only [mapStep, hfb]; exact h)
    | some p => exact ih _ (by simp only [mapStep, hfb]; exact nodup_keys_upsert m p.1 p.2 h)

theorem mem_mapFold (f : β → Option (String × α)) (l : List β) (m : List (String × α))
    (q : String × α) (h : q ∈ mapFold f m l) : q ∈ m ∨ ∃ b ∈ l, f b = some q := by
  induction l generalizing m with
  | nil => exact Or.inl h
  | cons b t ih =>
    have h' : q ∈ mapFold f (mapStep f m b) t := h
    rcases ih _ h' with hm | ⟨b', hb', hf⟩
    · cases hfb : f b with
      | none =>
        simp only [mapStep, hfb] at hm
        exact Or.inl hm
      | some p =>
        simp only [mapStep, hfb] at hm
        rcases mem_upsert m p.1 p.2 q hm with h1 | h2
        · exact Or.inl h1
        · exact Or.inr ⟨b, List.mem_cons_self b t, by rw [hfb, h2, Prod.mk.eta]⟩
    · exact Or.inr ⟨b', List.mem_cons_of_mem b hb', hf⟩

theorem lastVal_eq_getLast? (f : β → Option (String × α)) (l : List β) (n : String) :
    lastVal f l n =
      ((l.filter (keyPred f n)).getLast?).bind (fun b => (f b).map (fun p => p.2)) := by
  induction l with
  | nil => rfl
  | cons b t ih =>
    rw [lastVal_cons, ih, List.filter_cons]
    by_cases hft : t.filter (keyPred f n) = []
    · rw [hft]
      by_cases hpb : keyPred f n b = true
      · rw [if_pos hpb]
        obtain ⟨p, hfb, hpn⟩ := keyPred_true hpb
        simp [hfb, hpn]
      · rw [if_neg hpb]
        cases hfb : f b with
        | none => simp [hfb]
        | some p =>
          rw [keyPred, hfb] at hpb
          simp only [decide_eq_true_eq] at hpb
          simp [hfb, hpb]
    · obtain ⟨d, hd⟩ := Option.isSome_iff_exists.mp (List.getLast?_isSome.mpr hft)
      have hdmem := mem_of_getLast?_eq _ d hd
      have hdp := List.of_mem_filter hdmem
      obtain ⟨p, hfd, hpn⟩ := keyPred_true hdp
      have hlhs : ((t.filter (keyPred f n)).getLast?).bind
          (fun b => (f b).map (fun p => p.2)) = some p.2 := by
        rw [hd]
        simp [hfd]
      rw [hlhs]
      by_cases hpb : keyPred f n b = true
      · rw [if_pos hpb, getLast?_cons_of_ne b _ hft, hd]
        simp [hfd]
      · rw [if_neg hpb, hd]
        simp [hfd]

theorem skillStep_eq (m : List (String × SkillRec)) (d : SkillDir) :
    skillStep m d = mapStep skillF m d := by
  cases hd : d.skill with
  | none => simp [skillStep, mapStep, skillF, hd]
  | some c => simp [skillStep, mapStep, skillF, hd]

theorem skillsFold_eq_mapFold (dirs : List SkillDir) (m : List (String × SkillRec)) :
    skillsFold m dirs = mapFold skillF m dirs := by
  induction dirs generalizing m with
  | nil => rfl
  | cons d t ih =>
    calc skillsFold m (d :: t) = skillsFold (skillStep m d) t := rfl
    _ = mapFold skillF (skillStep m d) t := ih _
    _ = mapFold skillF (mapStep skillF m d) t := by rw [skillStep_eq]
    _ = mapFold skillF m (d :: t) := rfl

theorem subStep_eq (m : List (String × SubagentRec)) (f : SubagentFile) :
    subStep m f = mapStep subF m f := rfl

theorem subsFold_eq_mapFold (files : List SubagentFile) (m : List (String × SubagentRec)) :
    subsFold m files = mapFold subF m files := by
  induction files generalizing m with
  | nil => rfl
  | cons f t ih =>
    calc subsFold m (f :: t) = subsFold (subStep m f) t := rfl
    _ = mapFold subF (subStep m f) t := ih _
    _ = mapFold subF (mapStep subF m f) t := by rw [subStep_eq]
    _ = mapFold subF m (f :: t) := rfl

theorem jsOr_eq_empty (o : Option String) (dflt : String) (h : jsOr o dflt = "") :
    dflt = "" := by
  cases o with
  | none => exact h
  | some s =>
    by_cases hs : s = ""
    · simpa [jsOr, hs] using h
    · simp [jsOr, hs] at h

theorem jsTruthy_iff (o : Option String) : jsTruthy o = true ↔ ∃ r, o = some r ∧ r ≠ "" := by
  cases o with
  | none => simp [jsTruthy]
  | some s =>
    by_cases hs : s = "" <;> simp [jsTruthy, hs]

theorem strip_eq_of_balanced (t : List Char) (h : startsQ t = endsQ t) :
    stripQuotes t = descStrip t := by
  cases t with
  | nil => rfl
  | cons c cs =>
    by_cases hq : isQuote c = true
    · have he : endsQ (c :: cs) = true := by
        rw [← h]
        simpa [startsQ] using hq
      cases cs with
      | nil => simp [stripQuotes, descStrip, hq]
      | cons c2 t2 =>
        obtain ⟨lc, hlc⟩ := Option.isSome_iff_exists.mp
          (List.getLast?_isSome.mpr (List.cons_ne_nil c2 t2))
        have hlq : isQuote lc = true := by
          unfold endsQ at he
          rw [List.getLast?_cons_cons, hlc] at he
          exact he
        have hl2 : (c :: c2 :: t2).getLast? = some lc := by
          rw [List.getLast?_cons_cons, hlc]
        simp only [stripQuotes, descStrip, hq, if_pos, ite_true, hlc, hlq, hl2]
        rw [List.dropLast_cons₂]
        rfl
    · have he : endsQ (c :: cs) = false := by
        rw [← h]
        simpa [startsQ] using hq
      obtain ⟨lc, hlc⟩ := Option.isSome_iff_exists.mp
        (List.getLast?_isSome.mpr (List.cons_ne_nil c cs))
      have hlq : isQuote lc = false := by
        unfold endsQ at he
        rw [hlc] at he
        exact he
      simp [stripQuotes, descStrip, hq, hlc, hlq]

end GCT

namespace GCT

/-- C1 (amended): the description stripping rule is NOT the same as the name
rule — name strips one leading and one trailing quote character
independently, while description drops its first and last characters whenever
it starts with a quote character.  The two rules agree exactly on raw field
values whose trimmed form starts with a quote character if and only if it
ends with one. -/
theorem name_desc_strip_agree (v : List Char)
    (h : startsQ (jsTrim v) = endsQ (jsTrim v)) : stripName v = stripDesc v := by
  unfold stripName stripDesc
  rw [strip_eq_of_balanced _ h]

theorem name_desc_strip_agree_witness :
    startsQ (jsTrim "\"quoted\"".toList) = endsQ (jsTrim "\"quoted\"".toList) ∧
    stripName "\"quoted\"".toList = stripDesc "\"quoted\"".toList :=
  ⟨by decide, name_desc_strip_agree _ (by decide)⟩

/-- C1 counterexample: a block declaring both fields with the same raw value
`"abc` (a leading quote, no trailing quote) yields name `abc` but description
`ab`: the two stripping rules differ, refuting the claim as stated. -/
theorem name_desc_strip_differ :
    (extractFrontmatter "---\nname: \"abc\ndescription: \"abc\n---").1 = some "abc" ∧
    (extractFrontmatter "---\nname: \"abc\ndescription: \"abc\n---").2 = some "ab" ∧
    (extractFrontmatter "---\nname: \"abc\ndescription: \"abc\n---").1 ≠
      (extractFrontmatter "---\nname: \"abc\ndescription: \"abc\n---").2 :=
  ⟨by decide, by decide, by decide⟩

/-- C7: the frontmatter parser is total by construction; if the fixed marker
pair does not open the document, or no block matches, the result is
`(none, none)`; when a block is present the name and description components
are computed from the block independently of one another. -/
theorem frontmatter_parser_total (content : String) :
    (("---".toList).isPrefixOf content.toList = false →
      extractFrontmatter content = (none, none)) ∧
    (fmBlock content.toList = none → extractFrontmatter content = (none, none)) ∧
    (∀ b, fmBlock content.toList = some b →
      extractFrontmatter content =
        ((findField nameLabel b).map stripName, (findField descLabel b).map stripDesc)) := by
  refine ⟨?_, ?_, ?_⟩
  · intro h
    have hny : ¬ (("---".toList).isPrefixOf content.toList = true) := by
      rw [h]
      exact Bool.false_ne_true
    have hb : fmBlock content.toList = none := by
      unfold fmBlock
      rw [if_neg hny]
    simp only [extractFrontmatter, hb]
  · intro h
    simp only [extractFrontmatter, h]
  · intro b h
    simp only [extractFrontmatter, h]

theorem frontmatter_parser_total_witness :
    extractFrontmatter "plain document with no metadata block" = (none, none) ∧
    extractFrontmatter "---\nname: foo\ndescription: bar\n---\nbody" =
      ((findField nameLabel ("name: foo\ndescription: bar").toList).map stripName,
       (findField descLabel ("name: foo\ndescription: bar").toList).map stripDesc) :=
  ⟨(frontmatter_parser_total "plain document with no metadata block").2.1 (by decide),
   (frontmatter_parser_total "---\nname: foo\ndescription: bar\n---\nbody").2.2
      ("name: foo\ndescription: bar").toList (by decide)⟩

/-- C8: an absent skills root or subagents root builds an empty collection;
skill directories lacking the primary document are skipped exactly as if
they were filtered out; the build is total and yields a bundle with zero
skills and zero subagents when both roots are missing. -/
theorem missing_roots_and_skipped_dirs :
    buildSkills none = ⟨[], []⟩ ∧
    buildSubagents none = ⟨[], []⟩ ∧
    (∀ dirs, buildSkills (some dirs) =
      buildSkills (some (dirs.filter (fun d => d.skill.isSome)))) ∧
    (∀ w pkg, (output ⟨none, none, w, pkg⟩).skills = [] ∧
      (output ⟨none, none, w, pkg⟩).subagents = []) := by
  refine ⟨rfl, rfl, ?_, fun w pkg => ⟨rfl, rfl⟩⟩
  intro dirs
  have hfold : ∀ m, skillsFold m dirs = skillsFold m (dirs.filter (fun d => d.skill.isSome)) := by
    induction dirs with
    | nil => intro m; rfl
    | cons d t ih =>
      intro m
      cases hd : d.skill with
      | none =>
        have hstep : skillStep m d = m := by simp [skillStep, hd]
        have hfc : (d :: t).filter (fun d => d.skill.isSome) =
            t.filter (fun d => d.skill.isSome) := by
          simp [List.filter_cons, hd]
        calc skillsFold m (d :: t) = skillsFold (skillStep m d) t := rfl
        _ = skillsFold m t := by rw [hstep]
        _ = skillsFold m (t.filter (fun d => d.skill.isSome)) := ih m
        _ = skillsFold m ((d :: t).filter (fun d => d.skill.isSome)) := by rw [hfc]
      | some c =>
        have hfc : (d :: t).filter (fun d => d.skill.isSome) =
            d :: t.filter (fun d => d.skill.isSome) := by
          simp [List.filter_cons, hd]
        calc skillsFold m (d :: t) = skillsFold (skillStep m d) t := rfl
        _ = skillsFold (skillStep m d) (t.filter (fun d => d.skill.isSome)) := ih _
        _ = skillsFold m ((d :: t).filter (fun d => d.skill.isSome)) := by rw [hfc]; rfl
  simp only [buildSkills]
  rw [hfold []]

/-- C9 (amended): the record id is always the directory name (filename stem
for subagents) and the map key and record name are the declared frontmatter
name when it is present AND non-empty, falling back to the directory name
(filename stem) when the declared name is absent OR empty — JS `||`
treats the empty string as absent. -/
theorem record_identity :
    (∀ (d : SkillDir) (c : String), d.skill = some c →
      (mkSkillRec d c).id = d.dirName ∧
      (∀ n, (extractFrontmatter c).1 = some n → n ≠ "" → (mkSkillRec d c).name = n) ∧
      (((extractFrontmatter c).1 = none ∨ (extractFrontmatter c).1 = some "") →
        (mkSkillRec d c).name = d.dirName) ∧
      (∀ m, skillStep m d = upsert m (mkSkillRec d c).name (mkSkillRec d c))) ∧
    (∀ f : SubagentFile,
      (mkSubagentRec f).id = stem f.fileName ∧
      (∀ n, (extractFrontmatter f.content).1 = some n → n ≠ "" → (mkSubagentRec f).name = n) ∧
      (((extractFrontmatter f.content).1 = none ∨ (extractFrontmatter f.content).1 = some "") →
        (mkSubagentRec f).name = stem f.fileName) ∧
      (∀ m, subStep m f = upsert m (mkSubagentRec f).name (mkSubagentRec f))) := by
  constructor
  · intro d c hd
    refine ⟨rfl, ?_, ?_, ?_⟩
    · intro n h hn
      simp [mkSkillRec, jsOr, h, hn]
    · rintro (h | h) <;> simp [mkSkillRec, jsOr, h]
    · intro m
      simp [skillStep, hd]
  · intro f
    refine ⟨rfl, ?_, ?_, fun m => rfl⟩
    · intro n h hn
      simp [mkSubagentRec, jsOr, h, hn]
    · rintro (h | h) <;> simp [mkSubagentRec, jsOr, h]

theorem record_identity_witness :
    ((⟨"dir", some "---\nname: cool\n---\nX", none⟩ : SkillDir).skill =
      some "---\nname: cool\n---\nX") ∧
    (mkSkillRec ⟨"dir", some "---\nname: cool\n---\nX", none⟩ "---\nname: cool\n---\nX").name =
      "cool" ∧
    (mkSubagentRec ⟨"ag.md", "---\nname: aga\n---\nY"⟩).name = "aga" :=
  ⟨rfl,
   (record_identity.1 ⟨"dir", some "---\nname: cool\n---\nX", none⟩ _ rfl).2.1 "cool"
     (by decide) (by decide),
   (record_identity.2 ⟨"ag.md", "---\nname: aga\n---\nY"⟩).2.1 "aga" (by decide) (by decide)⟩

/-- C9 counterexample: a primary document declaring `name: ""` has a PRESENT
declared name (the empty string after stripping), yet the record's key and
name are the directory name, not that declared name. -/
theorem record_key_empty_name_counterexample :
    (extractFrontmatter "---\nname: \"\"\n---\nX").1 = some "" ∧
    (mkSkillRec ⟨"d", some "---\nname: \"\"\n---\nX", none⟩ "---\nname: \"\"\n---\nX").name =
      "d" ∧
    ("d" : String) ≠ "" :=
  ⟨by decide, by decide, by decide⟩

/-- C10: a declared name that strips to the empty string triggers the same
fallback as an absent name, for skills and subagents alike; consequently an
empty map key can only arise from an empty directory name or filename stem,
never from such a declaration. -/
theorem empty_declared_name_falls_back :
    (∀ (d : SkillDir) (c : String), d.skill = some c → (extractFrontmatter c).1 = some "" →
      (mkSkillRec d c).name = d.dirName) ∧
    (∀ f : SubagentFile, (extractFrontmatter f.content).1 = some "" →
      (mkSubagentRec f).name = stem f.fileName) ∧
    (∀ (dirs : List SkillDir) (r : SkillRec), alookup (skillsFold [] dirs) "" = some r →
      ∃ d ∈ dirs, d.dirName = "") ∧
    (∀ (files : List SubagentFile) (r : SubagentRec), alookup (subsFold [] files) "" = some r →
      ∃ f ∈ files, stem f.fileName = "") := by
  refine ⟨?_, ?_, ?_, ?_⟩
  · intro d c _ h
    simp [mkSkillRec, jsOr, h]
  · intro f h
    simp [mkSubagentRec, jsOr, h]
  · intro dirs r h
    have hmem := mem_of_alookup _ _ _ h
    rw [skillsFold_eq_mapFold] at hmem
    rcases mem_mapFold _ _ _ _ hmem with h0 | ⟨d, hd, hfd⟩
    · simp at h0
    · refine ⟨d, hd, ?_⟩
      cases hsk : d.skill with
      | none => simp [skillF, hsk] at hfd
      | some c =>
        simp only [skillF, hsk] at hfd
        have hname : (mkSkillRec d c).name = "" := congrArg Prod.fst (Option.some.inj hfd)
        exact jsOr_eq_empty _ _ hname
  · intro files r h
    have hmem := mem_of_alookup _ _ _ h
    rw [subsFold_eq_mapFold] at hmem
    rcases mem_mapFold _ _ _ _ hmem with h0 | ⟨f, hf, hff⟩
    · simp at h0
    · refine ⟨f, hf, ?_⟩
      simp only [subF] at hff
      have hname : (mkSubagentRec f).name = "" := congrArg Prod.fst (Option.some.inj hff)
      exact jsOr_eq_empty _ _ hname

theorem empty_declared_name_falls_back_witness :
    (extractFrontmatter "---\nname: \"\"\n---\nZ").1 = some "" ∧
    (mkSkillRec ⟨"dd", some "---\nname: \"\"\n---\nZ", none⟩ "---\nname: \"\"\n---\nZ").name =
      "dd" ∧
    ∃ d ∈ [(⟨"", some "z", none⟩ : SkillDir)], d.dirName = "" :=
  ⟨by decide,
   empty_declared_name_falls_back.1 ⟨"dd", some "---\nname: \"\"\n---\nZ", none⟩ _ rfl (by decide),
   empty_declared_name_falls_back.2.2.1 [⟨"", some "z", none⟩] ⟨"", "", "", "z", none⟩
     (by decide)⟩

theorem skills_byName_wf (dirs : List SkillDir) :
    ∀ q ∈ skillsFold [] dirs, (q.2).name = q.1 := by
  intro q hq
  rw [skillsFold_eq_mapFold] at hq
  rcases mem_mapFold _ _ _ _ hq with h0 | ⟨d, _, hfd⟩
  · simp at h0
  · cases hsk : d.skill with
    | none => simp [skillF, hsk] at hfd
    | some c =>
      simp only [skillF, hsk] at hfd
      have hq2 := (Option.some.inj hfd)
      rw [← hq2]

theorem subs_byName_wf (files : List SubagentFile) :
    ∀ q ∈ subsFold [] files, (q.2).name = q.1 := by
  intro q hq
  rw [subsFold_eq_mapFold] at hq
  rcases mem_mapFold _ _ _ _ hq with h0 | ⟨f, _, hff⟩
  · simp at h0
  · simp only [subF] at hff
    have hq2 := (Option.some.inj hff)
    rw [← hq2]

theorem skills_byName_nodup (dirs : List SkillDir) :
    (keysOf (skillsFold [] dirs)).Nodup := by
  rw [skillsFold_eq_mapFold]
  exact nodup_keys_mapFold _ _ _ (by simp [keysOf])

theorem subs_byName_nodup (files : List SubagentFile) :
    (keysOf (subsFold [] files)).Nodup := by
  rw [subsFold_eq_mapFold]
  exact nodup_keys_mapFold _ _ _ (by simp [keysOf])

/-- When some processed directory resolves to key `n`, the surviving record
in the byName map is the one of the LAST such directory. -/
theorem skills_byName_lookup (dirs : List SkillDir) (n : String) (d : SkillDir) (c : String)
    (hd : (relevantSkills dirs n).getLast? = some d) (hsk : d.skill = some c) :
    alookup (skillsFold [] dirs) n = some (mkSkillRec d c) := by
  have hlast : lastVal skillF dirs n = some (mkSkillRec d c) := by
    rw [lastVal_eq_getLast?]
    have : dirs.filter (keyPred skillF n) = relevantSkills dirs n := rfl
    rw [this, hd]
    simp [skillF, hsk]
  rw [skillsFold_eq_mapFold, alookup_mapFold, hlast]

theorem subs_byName_lookup (files : List SubagentFile) (n : String) (f : SubagentFile)
    (hf : (relevantSubs files n).getLast? = some f) :
    alookup (subsFold [] (files.filter (fun f => f.fileName.endsWith ".md"))) n =
      some (mkSubagentRec f) := by
  have hlast : lastVal subF (files.filter (fun f => f.fileName.endsWith ".md")) n =
      some (mkSubagentRec f) := by
    rw [lastVal_eq_getLast?]
    have : (files.filter (fun f => f.fileName.endsWith ".md")).filter (keyPred subF n) =
        relevantSubs files n := rfl
    rw [this, hf]
    simp [subF]
  rw [subsFold_eq_mapFold, alookup_mapFold, hlast]

/-- C2 (amended): whenever at least two processed directories resolve to the
same non-degenerate map key `n` — by truthy declared name or by directory-name
fallback — the built bundle has exactly one entry for `n` in content.skills
and exactly one record named `n` in the skills metadata, and the surviving
id, content and reference are those of the last-processed such directory. -/
theorem name_collision_last_write_wins (dirs : List SkillDir)
    (sub : Option (List SubagentFile)) (w : Option String) (pkg : Pkg) (n : String)
    (h2 : 2 ≤ (relevantSkills dirs n).length) :
    ∃ d, (relevantSkills dirs n).getLast? = some d ∧ ∃ c, d.skill = some c ∧
      ((output ⟨some dirs, sub, w, pkg⟩).contentSkills.filter (fun p => p.1 = n)) =
        [(n, ⟨c, d.reference⟩)] ∧
      ((output ⟨some dirs, sub, w, pkg⟩).skills.filter (fun m => m.name = n)) =
        [⟨d.dirName, n, jsTruthy d.reference⟩] := by
  have hne : relevantSkills dirs n ≠ [] := by
    intro hnil
    rw [hnil] at h2
    simp at h2
  obtain ⟨d, hd⟩ := Option.isSome_iff_exists.mp (List.getLast?_isSome.mpr hne)
  have hdmem : d ∈ relevantSkills dirs n := mem_of_getLast?_eq _ _ hd
  have hdp : keyPred skillF n d = true := List.of_mem_filter hdmem
  obtain ⟨p, hfd, hpn⟩ := keyPred_true hdp
  cases hsk : d.skill with
  | none => simp [skillF, hsk] at hfd
  | some c =>
    simp only [skillF, hsk] at hfd
    have hpname : (mkSkillRec d c).name = n :=
      (congrArg Prod.fst (Option.some.inj hfd)).trans hpn
    have halk : alookup (skillsFold [] dirs) n = some (mkSkillRec d c) :=
      skills_byName_lookup dirs n d c hd hsk
    have hnd := skills_byName_nodup dirs
    have hsingle := filter_eq_singleton_of_alookup _ n (mkSkillRec d c) hnd halk
    refine ⟨d, hd, c, hsk, ?_, ?_⟩
    · simp only [output, buildSkills]
      rw [filter_mapVal (skillsFold [] dirs)
        (fun r => ({ content := r.content, reference := r.reference } : SkillEntry)) n,
        hsingle]
      rfl
    · simp only [output, buildSkills]
      rw [List.filter_map]
      have hcong :
          ((skillsFold [] dirs).filter
            ((fun m => decide (m.name = n)) ∘ (fun p => toSkillMeta p.2))) =
          ((skillsFold [] dirs).filter (fun p => p.1 = n)) := by
        refine List.filter_congr ?_
        intro q hq
        simp [Function.comp, toSkillMeta, skills_byName_wf dirs q hq]
      rw [hcong, hsingle]
      simp only [List.map_cons, List.map_nil, toSkillMeta]
      rw [hpname]
      rfl

theorem name_collision_last_write_wins_witness :
    2 ≤ (relevantSkills
          [⟨"a", some "---\nname: shared\n---\nA", none⟩,
           ⟨"b", some "---\nname: shared\n---\nB", none⟩] "shared").length ∧
    ∃ d, (relevantSkills
          [⟨"a", some "---\nname: shared\n---\nA", none⟩,
           ⟨"b", some "---\nname: shared\n---\nB", none⟩] "shared").getLast? = some d ∧
      ∃ c, d.skill = some c ∧
      ((output ⟨some [⟨"a", some "---\nname: shared\n---\nA", none⟩,
                      ⟨"b", some "---\nname: shared\n---\nB", none⟩],
          some [], none, ⟨"p", "d", none⟩⟩).contentSkills.filter
            (fun p => p.1 = "shared")) = [("shared", ⟨c, d.reference⟩)] ∧
      ((output ⟨some [⟨"a", some "---\nname: shared\n---\nA", none⟩,
                      ⟨"b", some "---\nname: shared\n---\nB", none⟩],
          some [], none, ⟨"p", "d", none⟩⟩).skills.filter
            (fun m => m.name = "shared")) = [⟨d.dirName, "shared", jsTruthy d.reference⟩] :=
  ⟨by decide,
   name_collision_last_write_wins
     [⟨"a", some "---\nname: shared\n---\nA", none⟩,
      ⟨"b", some "---\nname: shared\n---\nB", none⟩]
     (some []) none ⟨"p", "d", none⟩ "shared" (by decide)⟩

/-- C2 counterexample: two distinct directories both DECLARING the same
frontmatter name (the empty string, via `name: ""`) do not collide at all —
the bundle then has ZERO entries for that declared name instead of exactly
one, because JS `||` routes both records to their directory-name keys. -/
theorem name_collision_empty_name_counterexample :
    (extractFrontmatter "---\nname: \"\"\n---\nA").1 = some "" ∧
    (extractFrontmatter "---\nname: \"\"\n---\nB").1 = some "" ∧
    ((output ⟨some [⟨"a", some "---\nname: \"\"\n---\nA", none⟩,
                    ⟨"b", some "---\nname: \"\"\n---\nB", none⟩],
        some [], none, ⟨"p", "d", none⟩⟩).contentSkills.filter
          (fun p => p.1 = "")).length = 0 ∧
    ((output ⟨some [⟨"a", some "---\nname: \"\"\n---\nA", none⟩,
                    ⟨"b", some "---\nname: \"\"\n---\nB", none⟩],
        some [], none, ⟨"p", "d", none⟩⟩).skills.filter
          (fun m => m.name = "")).length = 0 :=
  ⟨by decide, by decide, by decide, by decide⟩

/-- C5 (amended): every entry of the skills metadata list stems from a source
directory with a primary document, carries that directory's name as id, and
its hasReference flag is true if and only if that directory's reference
document exists AND has non-empty content — the script computes the flag by
JS truthiness of the reference string, so an existing empty reference file
yields false. -/
theorem hasReference_iff_nonempty_reference (dirs : List SkillDir) (m : SkillMeta)
    (hm : m ∈ (buildSkills (some dirs)).skills) :
    ∃ d ∈ dirs, ∃ c, d.skill = some c ∧ m.id = d.dirName ∧
      (m.hasReference = true ↔ ∃ r, d.reference = some r ∧ r ≠ "") := by
  simp only [buildSkills] at hm
  obtain ⟨p, hp, hpm⟩ := List.mem_map.mp hm
  rw [skillsFold_eq_mapFold] at hp
  rcases mem_mapFold _ _ _ _ hp with h0 | ⟨d, hd, hfd⟩
  · simp at h0
  · cases hsk : d.skill with
    | none => simp [skillF, hsk] at hfd
    | some c =>
      simp only [skillF, hsk] at hfd
      have hp2 : p.2 = mkSkillRec d c := congrArg Prod.snd (Option.some.inj hfd).symm
      refine ⟨d, hd, c, hsk, ?_, ?_⟩
      · rw [← hpm, hp2]
        rfl
      · rw [← hpm, hp2]
        exact jsTruthy_iff d.reference

theorem hasReference_iff_nonempty_reference_witness :
    (⟨"s", "s", true⟩ : SkillMeta) ∈
      (buildSkills (some [⟨"s", some "x", some "ref"⟩])).skills ∧
    ∃ d ∈ [(⟨"s", some "x", some "ref"⟩ : SkillDir)], ∃ c, d.skill = some c ∧
      (⟨"s", "s", true⟩ : SkillMeta).id = d.dirName ∧
      ((⟨"s", "s", true⟩ : SkillMeta).hasReference = true ↔
        ∃ r, d.reference = some r ∧ r ≠ "") :=
  ⟨by decide,
   hasReference_iff_nonempty_reference [⟨"s", some "x", some "ref"⟩] ⟨"s", "s", true⟩
     (by decide)⟩

/-- C5 counterexample: a skill directory whose reference document exists with
EMPTY content is reported with hasReference = false, refuting the claimed
equivalence with mere existence of the file. -/
theorem hasReference_false_with_existing_reference :
    ((⟨"s", some "x", some ""⟩ : SkillDir).reference).isSome = true ∧
    (buildSkills (some [⟨"s", some "x", some ""⟩])).skills = [⟨"s", "s", false⟩] :=
  ⟨by decide, by decide⟩

/-- C6 (amended): every name in the skills metadata has an entry in
content.skills and every name in the subagents metadata has an entry in
content.subagents; for skills, hasReference is true if and only if the
corresponding entry's reference is non-null AND non-empty (JS truthiness),
not merely non-null. -/
theorem metadata_content_correspondence (fs : Fs) :
    (∀ m ∈ (output fs).skills, ∃ e, alookup (output fs).contentSkills m.name = some e ∧
      (m.hasReference = true ↔ ∃ r, e.reference = some r ∧ r ≠ "")) ∧
    (∀ m ∈ (output fs).subagents, ∃ e, alookup (output fs).contentSubagents m.name = some e) := by
  constructor
  · intro m hm
    cases hroot : fs.skillsRoot with
    | none => simp [output, buildSkills, hroot] at hm
    | some dirs =>
      simp only [output, buildSkills, hroot] at hm ⊢
      obtain ⟨q, hq, hqm⟩ := List.mem_map.mp hm
      have hwf := skills_byName_wf dirs q hq
      have hnd := skills_byName_nodup dirs
      have halk : alookup (skillsFold [] dirs) q.1 = some q.2 :=
        alookup_of_mem _ _ _ (by rw [Prod.mk.eta]; exact hq) hnd
      have hmn : m.name = q.1 := by
        rw [← hqm]
        exact hwf
      refine ⟨⟨q.2.content, q.2.reference⟩, ?_, ?_⟩
      · rw [hmn,
          alookup_mapVal (skillsFold [] dirs)
            (fun r => ({ content := r.content, reference := r.reference } : SkillEntry)) q.1,
          halk]
        rfl
      · have hhr : m.hasReference = jsTruthy q.2.reference := by
          rw [← hqm]
          rfl
        rw [hhr]
        exact jsTruthy_iff q.2.reference
  · intro m hm
    cases hroot : fs.subagentsRoot with
    | none => simp [output, buildSubagents, hroot] at hm
    | some files =>
      simp only [output, buildSubagents, hroot] at hm ⊢
      obtain ⟨q, hq, hqm⟩ := List.mem_map.mp hm
      have hwf := subs_byName_wf (files.filter (fun f => f.fileName.endsWith ".md")) q hq
      have hnd := subs_byName_nodup (files.filter (fun f => f.fileName.endsWith ".md"))
      have halk : alookup (subsFold [] (files.filter (fun f => f.fileName.endsWith ".md"))) q.1 =
          some q.2 :=
        alookup_of_mem _ _ _ (by rw [Prod.mk.eta]; exact hq) hnd
      have hmn : m.name = q.1 := by
        rw [← hqm]
        exact hwf
      refine ⟨⟨q.2.content⟩, ?_⟩
      rw [hmn,
        alookup_mapVal (subsFold [] (files.filter (fun f => f.fileName.endsWith ".md")))
          (fun r => ({ content := r.content } : SubagentEntry)) q.1,
        halk]
      rfl

theorem metadata_content_correspondence_witness :
    (⟨"s", "s", true⟩ : SkillMeta) ∈
      (output ⟨some [⟨"s", some "x", some "ref"⟩], some [], none, ⟨"p", "d", none⟩⟩).skills ∧
    ∃ e, alookup
        (output ⟨some [⟨"s", some "x", some "ref"⟩], some [], none,
          ⟨"p", "d", none⟩⟩).contentSkills (⟨"s", "s", true⟩ : SkillMeta).name = some e ∧
      ((⟨"s", "s", true⟩ : SkillMeta).hasReference = true ↔
        ∃ r, e.reference = some r ∧ r ≠ "") :=
  ⟨by decide,
   (metadata_content_correspondence
      ⟨some [⟨"s", some "x", some "ref"⟩], some [], none, ⟨"p", "d", none⟩⟩).1
      ⟨"s", "s", true⟩ (by decide)⟩

/-- C6 counterexample: with an existing but EMPTY reference document, the
bundle holds a skill entry whose reference is non-null (the empty string)
while its metadata hasReference flag is false — refuting the claimed
equivalence of hasReference with non-null reference. -/
theorem metadata_content_correspondence_counterexample :
    (output ⟨some [⟨"t", some "y", some ""⟩], some [], none, ⟨"p", "d", none⟩⟩).skills =
      [⟨"t", "t", false⟩] ∧
    alookup (output ⟨some [⟨"t", some "y", some ""⟩], some [], none,
      ⟨"p", "d", none⟩⟩).contentSkills "t" = some ⟨"y", some ""⟩ ∧
    (some "" : Option String) ≠ none :=
  ⟨by decide, by decide, by decide⟩

/-- C4 (amended): Get (modelled from the spec: id-first, then name) returns
the last-processed source document bytes for every name present in the build
input, PROVIDED the name is not shadowed by a different record's id — the
id-first lookup order makes a record whose id equals another record's name
win, so the unshadowed hypothesis is necessary.  The skill part also returns
the reference document verbatim; the subagent part returns the document. -/
theorem roundtrip_get (dirs : List SkillDir) (files : List SubagentFile)
    (w : Option String) (pkg : Pkg) (n : String) :
    ((relevantSkills dirs n ≠ [] ∧
      (∀ m ∈ (output ⟨some dirs, some files, w, pkg⟩).skills, m.id = n → m.name = n)) →
      ∃ d, (relevantSkills dirs n).getLast? = some d ∧ ∃ c, d.skill = some c ∧
        getSkillContent (output ⟨some dirs, some files, w, pkg⟩) n = some (c, d.reference)) ∧
    ((relevantSubs files n ≠ [] ∧
      (∀ m ∈ (output ⟨some dirs, some files, w, pkg⟩).subagents, m.id = n → m.name = n)) →
      ∃ f, (relevantSubs files n).getLast? = some f ∧
        getSubagentContent (output ⟨some dirs, some files, w, pkg⟩) n = some f.content) := by
  constructor
  · rintro ⟨hne, hshadow⟩
    obtain ⟨d, hd⟩ := Option.isSome_iff_exists.mp (List.getLast?_isSome.mpr hne)
    have hdmem : d ∈ relevantSkills dirs n := mem_of_getLast?_eq _ _ hd
    have hdp : keyPred skillF n d = true := List.of_mem_filter hdmem
    obtain ⟨p, hfd, hpn⟩ := keyPred_true hdp
    cases hsk : d.skill with
    | none => simp [skillF, hsk] at hfd
    | some c =>
      have halk : alookup (skillsFold [] dirs) n = some (mkSkillRec d c) :=
        skills_byName_lookup dirs n d c hd hsk
      have hCS : alookup (output ⟨some dirs, some files, w, pkg⟩).contentSkills n =
          some ⟨c, d.reference⟩ := by
        simp only [output, buildSkills]
        rw [alookup_mapVal (skillsFold [] dirs)
          (fun r => ({ content := r.content, reference := r.reference } : SkillEntry)) n,
          halk]
        rfl
      refine ⟨d, hd, c, hsk, ?_⟩
      cases hfind : (output ⟨some dirs, some files, w, pkg⟩).skills.find?
          (fun m => m.id = n) with
      | none =>
        simp only [getSkillContent, hfind, hCS]
        rfl
      | some mMeta =>
        have hmem := List.mem_of_find?_eq_some hfind
        have hid : mMeta.id = n := by
          have := List.find?_some hfind
          simpa using this
        have hname : mMeta.name = n := hshadow mMeta hmem hid
        simp only [getSkillContent, hfind, hname, hCS]
        rfl
  · rintro ⟨hne, hshadow⟩
    obtain ⟨f, hf⟩ := Option.isSome_iff_exists.mp (List.getLast?_isSome.mpr hne)
    have halk : alookup (subsFold [] (files.filter (fun f => f.fileName.endsWith ".md"))) n =
        some (mkSubagentRec f) := subs_byName_lookup files n f hf
    have hfmem : f ∈ relevantSubs files n := mem_of_getLast?_eq _ _ hf
    have hfp : keyPred subF n f = true := List.of_mem_filter hfmem
    have hCS : alookup (output ⟨some dirs, some files, w, pkg⟩).contentSubagents n =
        some ⟨f.content⟩ := by
      simp only [output, buildSubagents]
      rw [alookup_mapVal (subsFold [] (files.filter (fun f => f.fileName.endsWith ".md")))
        (fun r => ({ content := r.content } : SubagentEntry)) n,
        halk]
      rfl
    refine ⟨f, hf, ?_⟩
    cases hfind : (output ⟨some dirs, some files, w, pkg⟩).subagents.find?
        (fun m => m.id = n) with
    | none =>
      simp only [getSubagentContent, hfind, hCS]
      rfl
    | some mMeta =>
      have hmem := List.mem_of_find?_eq_some hfind
      have hid : mMeta.id = n := by
        have := List.find?_some hfind
        simpa using this
      have hname : mMeta.name = n := hshadow mMeta hmem hid
      simp only [getSubagentContent, hfind, hname, hCS]
      rfl

theorem roundtrip_get_witness :
    (relevantSkills [⟨"foo", some "---\nname: bar\ndescription: \"does bar\"\n---\nbody", none⟩]
        "bar" ≠ [] ∧
      (∀ m ∈ (output ⟨some [⟨"foo",
          some "---\nname: bar\ndescription: \"does bar\"\n---\nbody", none⟩],
          some [⟨"v.md", "---\nname: verifier\n---\nV"⟩], none, ⟨"p", "d", none⟩⟩).skills,
        m.id = "bar" → m.name = "bar")) ∧
    ∃ d, (relevantSkills [⟨"foo",
        some "---\nname: bar\ndescription: \"does bar\"\n---\nbody", none⟩] "bar").getLast? =
        some d ∧
      ∃ c, d.skill = some c ∧
        getSkillContent (output ⟨some [⟨"foo",
            some "---\nname: bar\ndescription: \"does bar\"\n---\nbody", none⟩],
            some [⟨"v.md", "---\nname: verifier\n---\nV"⟩], none, ⟨"p", "d", none⟩⟩) "bar" =
          some (c, d.reference) :=
  ⟨⟨by decide, by decide⟩,
   (roundtrip_get [⟨"foo", some "---\nname: bar\ndescription: \"does bar\"\n---\nbody", none⟩]
      [⟨"v.md", "---\nname: verifier\n---\nV"⟩] none ⟨"p", "d", none⟩ "bar").1
      ⟨by decide, by decide⟩⟩

/-- C4 counterexample: directory `a` declares name `b` while directory `b`
declares name `c`; the name `b` is present in the build input with source
document `A`, yet Get("b") resolves by id first to directory `b` and returns
its document `B` — not byte-identical to the source document of name `b`. -/
theorem roundtrip_get_counterexample :
    alookup (buildSkills (some [⟨"a", some "---\nname: b\n---\nA", none⟩,
        ⟨"b", some "---\nname: c\n---\nB", none⟩])).byName "b" =
      some ⟨"a", "b", "", "---\nname: b\n---\nA", none⟩ ∧
    getSkillContent (output ⟨some [⟨"a", some "---\nname: b\n---\nA", none⟩,
        ⟨"b", some "---\nname: c\n---\nB", none⟩], some [], none, ⟨"p", "d", none⟩⟩) "b" =
      some ("---\nname: c\n---\nB", none) ∧
    ("---\nname: c\n---\nB" : String) ≠ "---\nname: b\n---\nA" :=
  ⟨by decide, by decide, by decide⟩

theorem scanStep_inStr_plain (ok : Bool) (c : Char) (h1 : ¬ c = '\\') (h2 : ¬ c = '"') :
    scanStep (ok, true, false) c = (ok, true, false) := by
  simp [scanStep, h1, h2]

theorem scanStep_esc (ok : Bool) (c : Char) :
    scanStep (ok, true, true) c = (ok, true, false) := by
  simp [scanStep]

theorem scanStep_backslash (ok : Bool) :
    scanStep (ok, true, false) '\\' = (ok, true, true) := by
  simp [scanStep]

theorem scanStep_quote_in (ok : Bool) :
    scanStep (ok, true, false) '"' = (ok, false, false) := by
  simp [scanStep]

theorem scanStep_quote_out (ok : Bool) :
    scanStep (ok, false, false) '"' = (ok, true, false) := by
  simp [scanStep]

theorem hexDigitChar_scanFin :
    ∀ (m : Fin 16) (ok : Bool), scanStep (ok, true, false) (hexDigitChar m.1) =
      (ok, true, false) := by decide

theorem hexDigitChar_scan (n : Nat) (ok : Bool) :
    scanStep (ok, true, false) (hexDigitChar (n % 16)) = (ok, true, false) := by
  have h : n % 16 < 16 := Nat.mod_lt _ (by norm_num)
  simpa using hexDigitChar_scanFin ⟨n % 16, h⟩ ok

theorem scan_escChar (c : Char) (ok : Bool) :
    List.foldl scanStep (ok, true, false) (escChar c) = (ok, true, false) := by
  unfold escChar
  split_ifs with h1 h2 h3 h4 h5 h6 h7 h8
  · subst h1
    simp [List.foldl_cons, List.foldl_nil, scanStep_backslash, scanStep_esc]
  · subst h2
    simp [List.foldl_cons, List.foldl_nil, scanStep_backslash, scanStep_esc]
  · subst h3
    simp [List.foldl_cons, List.foldl_nil, scanStep_backslash, scanStep_esc]
  · subst h4
    simp [List.foldl_cons, List.foldl_nil, scanStep_backslash, scanStep_esc]
  · subst h5
    simp [List.foldl_cons, List.foldl_nil, scanStep_backslash, scanStep_esc]
  · subst h6
    simp [List.foldl_cons, List.foldl_nil, scanStep_backslash, scanStep_esc]
  · subst h7
    simp [List.foldl_cons, List.foldl_nil, scanStep_backslash, scanStep_esc]
  · simp only [List.foldl_cons, List.foldl_nil, scanStep_backslash, scanStep_esc]
    rw [scanStep_inStr_plain ok '0' (by decide) (by decide),
      scanStep_inStr_plain ok '0' (by decide) (by decide),
      hexDigitChar_scan, hexDigitChar_scan]
  · simp only [List.foldl_cons, List.foldl_nil]
    exact scanStep_inStr_plain ok c h2 h1

theorem scan_escList (l : List Char) (ok : Bool) :
    List.foldl scanStep (ok, true, false) (escList l) = (ok, true, false) := by
  induction l with
  | nil => rfl
  | cons c cs ih =>
    show List.foldl scanStep (ok, true, false) (escChar c ++ escList cs) = (ok, true, false)
    rw [List.foldl_append, scan_escChar, ih]

theorem scanInv_append {a b : List Char} (ha : ScanInv a) (hb : ScanInv b) :
    ScanInv (a ++ b) := by
  intro ok
  rw [List.foldl_append, ha ok, hb ok]

theorem scanInv_serStr (s : String) : ScanInv (serStr s) := by
  intro ok
  show List.foldl scanStep (ok, false, false) (('"' :: escList s.toList) ++ ['"']) =
    (ok, false, false)
  rw [List.foldl_append]
  simp only [List.foldl_cons, List.foldl_nil, scanStep_quote_out]
  rw [scan_escList, scanStep_quote_in]

theorem scanInv_decide (l : List Char)
    (h1 : List.foldl scanStep (true, false, false) l = (true, false, false))
    (h0 : List.foldl scanStep (false, false, false) l = (false, false, false)) :
    ScanInv l := by
  intro ok
  cases ok
  · exact h0
  · exact h1

theorem scanInv_joinComma (parts : List (List Char)) (h : ∀ p ∈ parts, ScanInv p) :
    ScanInv (joinComma parts) := by
  induction parts with
  | nil => exact scanInv_decide _ rfl rfl
  | cons x t ih =>
    cases t with
    | nil => exact h x (List.mem_cons_self x [])
    | cons y t2 =>
      show ScanInv (x ++ ',' :: joinComma (y :: t2))
      refine scanInv_append (h x (List.mem_cons_self x _)) ?_
      show ScanInv ([','] ++ joinComma (y :: t2))
      refine scanInv_append (scanInv_decide _ (by decide) (by decide)) ?_
      exact ih (fun p hp => h p (List.mem_cons_of_mem x hp))

theorem scanInv_serOptStr (o : Option String) : ScanInv (serOptStr o) := by
  cases o with
  | none => exact scanInv_decide _ (by decide) (by decide)
  | some s => exact scanInv_serStr s

theorem scanInv_serSkillMeta (m : SkillMeta) : ScanInv (serSkillMeta m) := by
  unfold serSkillMeta
  refine scanInv_append (scanInv_append (scanInv_append (scanInv_append
    (scanInv_append (scanInv_append (scanInv_decide _ (by decide) (by decide))
      (scanInv_serStr m.id)) (scanInv_decide _ (by decide) (by decide)))
      (scanInv_serStr m.name)) (scanInv_decide _ (by decide) (by decide))) ?_)
    (scanInv_decide _ (by decide) (by decide))
  cases m.hasReference
  · exact scanInv_decide _ (by decide) (by decide)
  · exact scanInv_decide _ (by decide) (by decide)

theorem scanInv_serSubagentMeta (m : SubagentMeta) : ScanInv (serSubagentMeta m) := by
  unfold serSubagentMeta
  exact scanInv_append (scanInv_append (scanInv_append (scanInv_append
    (scanInv_decide _ (by decide) (by decide)) (scanInv_serStr m.id))
    (scanInv_decide _ (by decide) (by decide))) (scanInv_serStr m.name))
    (scanInv_decide _ (by decide) (by decide))

theorem scanInv_serSkillEntry (e : SkillEntry) : ScanInv (serSkillEntry e) := by
  unfold serSkillEntry
  exact scanInv_append (scanInv_append (scanInv_append (scanInv_append
    (scanInv_decide _ (by decide) (by decide)) (scanInv_serStr e.content))
    (scanInv_decide _ (by decide) (by decide))) (scanInv_serOptStr e.reference))
    (scanInv_decide _ (by decide) (by decide))

theorem scanInv_serSubagentEntry (e : SubagentEntry) : ScanInv (serSubagentEntry e) := by
  unfold serSubagentEntry
  exact scanInv_append (scanInv_append (scanInv_decide _ (by decide) (by decide))
    (scanInv_serStr e.content)) (scanInv_decide _ (by decide) (by decide))

theorem scanInv_serPair (f : α → List Char) (p : String × α) (hf : ScanInv (f p.2)) :
    ScanInv (serPair f p) := by
  show ScanInv (serStr p.1 ++ ':' :: f p.2)
  refine scanInv_append (scanInv_serStr p.1) ?_
  show ScanInv ([':'] ++ f p.2)
  exact scanInv_append (scanInv_decide _ (by decide) (by decide)) hf

theorem scanInv_serObj (f : α → List Char) (m : List (String × α))
    (hf : ∀ p ∈ m, ScanInv (f p.2)) : ScanInv (serObj f m) := by
  show ScanInv (('\x7b' :: joinComma (m.map (serPair f))) ++ ['\x7d'])
  refine scanInv_append ?_ (scanInv_decide _ (by decide) (by decide))
  show ScanInv (['\x7b'] ++ joinComma (m.map (serPair f)))
  refine scanInv_append (scanInv_decide _ (by decide) (by decide)) ?_
  refine scanInv_joinComma _ ?_
  intro p hp
  obtain ⟨q, hq, hqe⟩ := List.mem_map.mp hp
  exact hqe ▸ scanInv_serPair f q (hf q hq)

theorem scanInv_serArr (f : α → List Char) (l : List α)
    (hf : ∀ x ∈ l, ScanInv (f x)) : ScanInv (serArr f l) := by
  show ScanInv (('[' :: joinComma (l.map f)) ++ [']'])
  refine scanInv_append ?_ (scanInv_decide _ (by decide) (by decide))
  show ScanInv (['['] ++ joinComma (l.map f))
  refine scanInv_append (scanInv_decide _ (by decide) (by decide)) ?_
  refine scanInv_joinComma _ ?_
  intro p hp
  obtain ⟨q, hq, hqe⟩ := List.mem_map.mp hp
  exact hqe ▸ hf q hq

theorem scanInv_serBundle (b : Bundle) : ScanInv (serBundle b) := by
  unfold serBundle
  have t1 : ScanInv ("\x7b\"skills\":".toList) := scanInv_decide _ (by decide) (by decide)
  have t2 : ScanInv (",\"subagents\":".toList) := scanInv_decide _ (by decide) (by decide)
  have t3 : ScanInv (",\"content\":\x7b\"skills\":".toList) :=
    scanInv_decide _ (by decide) (by decide)
  have t4 : ScanInv (",\"catalog\":".toList) := scanInv_decide _ (by decide) (by decide)
  have t5 : ScanInv (",\"whenToUse\":".toList) := scanInv_decide _ (by decide) (by decide)
  have t6 : ScanInv (",\"overview\":".toList) := scanInv_decide _ (by decide) (by decide)
  have t7 : ScanInv ("\x7d\x7d".toList) := scanInv_decide _ (by decide) (by decide)
  have c1 := scanInv_append t1
    (scanInv_serArr serSkillMeta b.skills (fun x _ => scanInv_serSkillMeta x))
  have c2 := scanInv_append c1 t2
  have c3 := scanInv_append c2
    (scanInv_serArr serSubagentMeta b.subagents (fun x _ => scanInv_serSubagentMeta x))
  have c4 := scanInv_append c3 t3
  have c5 := scanInv_append c4
    (scanInv_serObj serSkillEntry b.contentSkills (fun p _ => scanInv_serSkillEntry p.2))
  have c6 := scanInv_append c5 t2
  have c7 := scanInv_append c6
    (scanInv_serObj serSubagentEntry b.contentSubagents
      (fun p _ => scanInv_serSubagentEntry p.2))
  have c8 := scanInv_append c7 t4
  have c9 := scanInv_append c8 (scanInv_serStr b.catalog)
  have c10 := scanInv_append c9 t5
  have c11 := scanInv_append c10 (scanInv_serStr b.whenToUse)
  have c12 := scanInv_append c11 t6
  have c13 := scanInv_append c12 (scanInv_serStr b.overview)
  exact scanInv_append c13 t7

theorem lowerHexFin : ∀ m : Fin 16, lowerHex (hexDigitChar m.1) = true := by decide

theorem lowerHex_mod (n : Nat) : lowerHex (hexDigitChar (n % 16)) = true := by
  have h : n % 16 < 16 := Nat.mod_lt _ (by norm_num)
  simpa using lowerHexFin ⟨n % 16, h⟩

theorem hexByte_all (b : Nat) : (hexByte b).all lowerHex = true := by
  simp [hexByte, lowerHex_mod]

theorem hexWord_all (w : Nat) : (hexWord w).all lowerHex = true := by
  simp [hexWord, List.all_append, hexByte_all]

theorem hexWord_length (w : Nat) : (hexWord w).length = 8 := by
  simp [hexWord, hexByte]

theorem hexState_all (st : Hash8) : (hexState st).all lowerHex = true := by
  simp [hexState, List.all_append, hexWord_all]

theorem hexState_length (st : Hash8) : (hexState st).length = 64 := by
  simp [hexState, hexWord_length]

theorem sha256Hex_length (msg : List Nat) : (sha256Hex msg).length = 64 :=
  hexState_length _

theorem sha256Hex_all_lowerHex (msg : List Nat) :
    (sha256Hex msg).toList.all lowerHex = true :=
  hexState_all _

theorem count_newline_zero (l : List Char) (h : l.all lowerHex = true) :
    l.count '\n' = 0 := by
  rw [List.count_eq_zero]
  intro hmem
  have := List.all_eq_true.mp h '\n' hmem
  simp [lowerHex] at this

/-- The SHA-256 embedding reproduces the FIPS 180-2 test vector for "abc". -/
theorem sha256_test_vector_abc :
    sha256HexOfString "abc" =
      "ba7816bf8f01cfea414140de5dae2223b00361a396177a9cb410ff61f20015ad" := by decide

/-- The SHA-256 embedding reproduces the digest of the empty message. -/
theorem sha256_test_vector_empty :
    sha256HexOfString "" =
      "e3b0c44298fc1c149afbf4c8996fb92427ae41e4649b934ca495991b7852b855" := by decide

/-- The serializer embedding on an empty build input produces the expected
compact JSON text, with the catalog and overview texts of the script. -/
theorem serializer_ground_truth :
    jsonContent ⟨some [], some [], none, ⟨"p", "d", some "1.0.0"⟩⟩ =
      "\x7b\"skills\":[],\"subagents\":[],\"content\":\x7b\"skills\":\x7b\x7d,\"subagents\":\x7b\x7d,\"catalog\":\"# Catalog\\n\\n## Skills\\n\\n\\n## Subagents\\n\",\"whenToUse\":\"\",\"overview\":\"# Overview\\n\\n**p** — d\\n\\nVersion: `1.0.0`\\n\\nUse the **catalog** resource for a list of skills and subagents. Use **when-to-use** to choose the right one for the request.\"\x7d\x7d" := by
  decide

/-- C3: the artifact is the compact serialization (indent 0, hence no
whitespace outside string literals) of the bundle written at the fixed path;
the sidecar at the artifact path suffixed `.sha256` holds exactly the
64-character lowercase hexadecimal SHA-256 digest of the very bytes written,
followed by a single trailing newline. -/
theorem serialization_and_digest (fs : Fs) :
    sidecarContent fs = sha256Hex (artifactBytes fs) ++ "\n" ∧
    artifactBytes fs = utf8Bytes (jsonContent fs) ∧
    jsonContent fs = String.mk (serBundle (output fs)) ∧
    sidecarPath = outFilePath ++ ".sha256" ∧
    noStrayWs (jsonContent fs) = true ∧
    (hashHex fs).length = 64 ∧
    (hashHex fs).toList.all lowerHex = true ∧
    (sidecarContent fs).toList.count '\n' = 1 := by
  refine ⟨rfl, rfl, rfl, rfl, ?_, sha256Hex_length _, sha256Hex_all_lowerHex _, ?_⟩
  · show (List.foldl scanStep (true, false, false) (jsonContent fs).toList).1 = true
    have h : (jsonContent fs).toList = serBundle (output fs) := rfl
    rw [h, scanInv_serBundle (output fs) true]
  · show ((hashHex fs ++ "\n").toList).count '\n' = 1
    have h : (hashHex fs ++ "\n").toList = (hashHex fs).toList ++ ['\n'] := rfl
    rw [h, List.count_append]
    have hz : List.count '\n' (hashHex fs).toList = 0 :=
      count_newline_zero _ (sha256Hex_all_lowerHex (artifactBytes fs))
    rw [hz]
    rfl

end GCT
